import Mathlib

/-!
Verification of the soundness-layer CLI key-custody core
(src/soundness-cli/src/main.rs) against its specification.

Shallow embedding conventions:

* Byte strings (`Vec<u8>`, `[u8; N]`) are modelled as `List Nat`; the
  0..255 range of a byte plays no role in any claim, so it is not carried
  around.
* The external cryptographic primitives consumed by the program
  (`pbkdf2_hmac_array` / PBKDF2-HMAC-SHA256, `Aes256Gcm` / AES-256-GCM,
  `Sha256`, ed25519 signing, base64, the bip39 codec) are not code of this
  repository.  They are modelled as ideal functionalities: deterministic,
  and collision-free where the real primitive is collision-resistant
  (ideal-cipher / ideal-hash assumption).  Each model says in its doc
  comment which library call it stands for.
* Randomness (`OsRng.fill_bytes` for salts and nonces, key generation)
  is modelled by passing the random values as explicit arguments.
* File I/O is modelled by passing the file contents explicitly; the
  JSON text layer of `serde_json` is modelled by a JSON value tree
  (`Json` below), so `to_string`/`from_str` become functions between
  `KeyStore` and `Json`.
-/

/-- Byte strings (`Vec<u8>`): lists of naturals. -/
abbrev Bytes := List Nat

/- ### Decimal rendering of naturals

Models Rust's decimal `format!("{}", n)`, used by
`format!("batch_key_{}", idx)`.  Implemented from scratch so that its
injectivity can be proved. -/

/-- One decimal digit (`d < 10`) as its ASCII character. -/
def decDigitChar (d : Nat) : Char := Char.ofNat (48 + d)

/-- Decimal digit characters of `n`, most significant first, with a
structural fuel bound (`fuel ≥` number of digits minus one, i.e.
`n < 10 ^ (fuel + 1)`, makes the fallback unreachable). -/
def decDigitsFuel : Nat → Nat → List Char
  | 0, n => [decDigitChar n]
  | fuel + 1, n =>
    if n < 10 then [decDigitChar n]
    else decDigitsFuel fuel (n / 10) ++ [decDigitChar (n % 10)]

/-- Decimal digit characters of `n`, most significant first (`n` itself
is always enough fuel). -/
def decDigits (n : Nat) : List Char := decDigitsFuel n n

/-- Decimal rendering of a natural, as a string (models `format!("{}", n)`). -/
def natDecimal (n : Nat) : String := String.mk (decDigits n)

/-- Numeric value of a digit character, inverse of `decDigitChar`. -/
def decCharVal (c : Char) : Nat := c.toNat - 48

/-- Left fold evaluating a decimal digit string, inverse of `decDigits`. -/
def decValue (cs : List Char) : Nat := cs.foldl (fun acc c => 10 * acc + decCharVal c) 0

theorem decCharVal_decDigitChar {d : Nat} (h : d < 10) : decCharVal (decDigitChar d) = d := by
  interval_cases d <;> decide

theorem decValue_append_digit (cs : List Char) (c : Char) :
    decValue (cs ++ [c]) = 10 * decValue cs + decCharVal c := by
  simp [decValue, List.foldl_append]

theorem decValue_decDigitsFuel :
    ∀ fuel n, n < 10 ^ (fuel + 1) → decValue (decDigitsFuel fuel n) = n := by
  intro fuel
  induction fuel with
  | zero =>
    intro n hn
    have h10 : n < 10 := by
      rw [pow_one] at hn
      exact hn
    rw [decDigitsFuel]
    simp [decValue, decCharVal_decDigitChar h10]
  | succ fuel ih =>
    intro n hn
    rw [decDigitsFuel]
    by_cases h : n < 10
    · rw [if_pos h]
      simp [decValue, decCharVal_decDigitChar h]
    · rw [if_neg h, decValue_append_digit]
      have hdiv : n / 10 < 10 ^ (fuel + 1) := by
        rw [Nat.div_lt_iff_lt_mul (by omega)]
        rw [pow_succ] at hn
        exact hn
      rw [ih (n / 10) hdiv, decCharVal_decDigitChar (Nat.mod_lt _ (by omega))]
      omega

theorem decValue_decDigits (n : Nat) : decValue (decDigits n) = n := by
  apply decValue_decDigitsFuel
  calc n < 10 ^ n := Nat.lt_pow_self (by omega) n
  _ ≤ 10 ^ (n + 1) := Nat.pow_le_pow_right (by omega) (by omega)

theorem decDigits_injective : Function.Injective decDigits := by
  intro a b h
  have := congrArg decValue h
  rwa [decValue_decDigits, decValue_decDigits] at this

theorem natDecimal_injective : Function.Injective natDecimal := by
  intro a b h
  apply decDigits_injective
  exact congrArg String.data h

/- ### Ideal model of the external crypto primitives -/

/-- UTF code points of a password string; injective bridge from `String`
to `Bytes` (models `password.as_bytes()`; the exact byte encoding is
irrelevant to the claims, only determinism and injectivity matter). -/
def passwordBytes (password : String) : Bytes := password.data.map Char.toNat

theorem char_toNat_injective : Function.Injective Char.toNat := by
  intro c d h
  have := congrArg Char.ofNat h
  rwa [Char.ofNat_toNat, Char.ofNat_toNat] at this

theorem passwordBytes_injective : Function.Injective passwordBytes := by
  intro a b h
  have hdata : a.data = b.data := List.map_injective_iff.mpr char_toNat_injective h
  cases a; cases b; exact congrArg String.mk hdata

/-- Model of `derive_key` (main.rs:120-122): `pbkdf2_hmac_array::<Sha256,
32>(password.as_bytes(), salt, 100_000)`.  PBKDF2 is a deterministic
function of `(password, salt)`; it is modelled ideally as an *injective*
such function (the real primitive is collision-resistant).  The fixed
32-byte width of the real output plays no role in the claims, so the model
key is the length-tagged password followed by the salt. -/
def derive_key (password : String) (salt : Bytes) : Bytes :=
  (passwordBytes password).length :: (passwordBytes password ++ salt)

theorem derive_key_inj_password {p₁ p₂ : String} {salt : Bytes}
    (h : derive_key p₁ salt = derive_key p₂ salt) : p₁ = p₂ := by
  unfold derive_key at h
  have hlen : (passwordBytes p₁).length = (passwordBytes p₂).length :=
    (List.cons.injEq _ _ _ _ ▸ h).1
  have happ : passwordBytes p₁ ++ salt = passwordBytes p₂ ++ salt :=
    (List.cons.injEq _ _ _ _ ▸ h).2
  exact passwordBytes_injective (List.append_cancel_right happ)

/-- Reads one length-tagged field off the front of a byte string:
`[n] ++ field ++ rest ↦ (field, rest)`. Parsing helper for the ideal
AEAD model below. -/
def readField : Bytes → Option (Bytes × Bytes)
  | [] => none
  | n :: rest => if n ≤ rest.length then some (rest.take n, rest.drop n) else none

theorem readField_encode (xs ys : Bytes) :
    readField (xs.length :: (xs ++ ys)) = some (xs, ys) := by
  simp [readField, List.take_left, List.drop_left]

/-- Model of `Aes256Gcm::encrypt` (the `aes_gcm` crate): ideal
authenticated encryption.  The real cipher emits ciphertext plus an
integrity tag binding key and nonce; the ideal model emits the plaintext
tagged (length-prefixed) with the key and the nonce, so that decryption
succeeds exactly for the same key and nonce. -/
def aeadEncrypt (key nonce plaintext : Bytes) : Bytes :=
  key.length :: (key ++ (nonce.length :: (nonce ++ plaintext)))

/-- Model of `Aes256Gcm::decrypt` (the `aes_gcm` crate): parses the two
length-tagged fields of the ideal ciphertext and releases the plaintext
only if they equal the supplied key and nonce — the ideal counterpart of
the GCM tag check (forgeries are ignored, ideal-cipher assumption).
Returns `none` on authentication failure, as the crate returns `Err`. -/
def aeadDecrypt (key nonce ciphertext : Bytes) : Option Bytes :=
  match readField ciphertext with
  | none => none
  | some (k, rest) =>
    match readField rest with
    | none => none
    | some (n, plaintext) =>
      if k = key ∧ n = nonce then some plaintext else none

theorem aeadDecrypt_encrypt (key nonce plaintext : Bytes) :
    aeadDecrypt key nonce (aeadEncrypt key nonce plaintext) = some plaintext := by
  simp [aeadDecrypt, aeadEncrypt, readField_encode]

theorem aeadDecrypt_wrong_key {key key' : Bytes} (nonce plaintext : Bytes)
    (h : key' ≠ key) : aeadDecrypt key' nonce (aeadEncrypt key nonce plaintext) = none := by
  simp only [aeadDecrypt, aeadEncrypt, readField_encode]
  simp only [ite_eq_right_iff, and_imp]
  intro hk
  exact absurd hk.symm h

/- ### The envelope (`EncryptedSecretKey`) and its cipher wrappers -/

/-- Struct `EncryptedSecretKey` (main.rs:108-113): salt, nonce and AEAD output. -/
structure EncryptedSecretKey where
  salt : Bytes
  nonce : Bytes
  encrypted_data : Bytes
deriving DecidableEq

/-- Function `encrypt_secret_key` (main.rs:124-144).  The random salt and nonce
drawn from `OsRng` are passed explicitly.  The `Result` of the source can
only fail on primitive failure of the cipher, which the ideal cipher does
not exhibit, so the model is total. -/
def encrypt_secret_key (secret_key : Bytes) (password : String)
    (salt nonce : Bytes) : EncryptedSecretKey :=
  { salt := salt
    nonce := nonce
    encrypted_data := aeadEncrypt (derive_key password salt) nonce secret_key }

/-- Function `decrypt_secret_key` (main.rs:146-157): rederives the key from the
envelope's salt and the supplied password and authenticated-decrypts;
an authentication failure surfaces as the `anyhow` error
`"Decryption failed: …"`. -/
def decrypt_secret_key (encrypted : EncryptedSecretKey) (password : String) :
    Except String Bytes :=
  match aeadDecrypt (derive_key password encrypted.salt) encrypted.nonce
      encrypted.encrypted_data with
  | some plaintext => .ok plaintext
  | none => .error "Decryption failed"

/-- C1: for every secret byte string `s`, every password `p` and every
salt/nonce pair drawn for the envelope, decrypting the envelope produced
by `encrypt_secret_key (s, p)` with the same password `p` succeeds and
returns exactly `s`. -/
theorem C1_encrypt_decrypt_round_trip (s : Bytes) (p : String) (salt nonce : Bytes) :
    decrypt_secret_key (encrypt_secret_key s p salt nonce) p = .ok s := by
  simp [decrypt_secret_key, encrypt_secret_key, aeadDecrypt_encrypt]

/-- C2: for every secret `s` and distinct passwords `p₁ ≠ p₂`, decrypting
the envelope `encrypt_secret_key (s, p₁)` with `p₂` fails with the
authentication error and never returns any plaintext. -/
theorem C2_decrypt_wrong_password_fails (s : Bytes) (p₁ p₂ : String)
    (salt nonce : Bytes) (h : p₁ ≠ p₂) :
    decrypt_secret_key (encrypt_secret_key s p₁ salt nonce) p₂ =
      .error "Decryption failed" := by
  have hkey : derive_key p₂ salt ≠ derive_key p₁ salt := fun hk =>
    h (derive_key_inj_password hk).symm
  simp [decrypt_secret_key, encrypt_secret_key, aeadDecrypt_wrong_key _ _ hkey]

/-- C2 witness: concrete secret `[1, 2, 3]` encrypted under password "a"
does not decrypt under password "b". -/
theorem C2_decrypt_wrong_password_fails_witness :
    decrypt_secret_key (encrypt_secret_key [1, 2, 3] "a" [7] [9]) "b" =
      .error "Decryption failed" :=
  C2_decrypt_wrong_password_fails [1, 2, 3] "a" "b" [7] [9] (by decide)

/- ### Remaining external primitives: ed25519, base64, bip39, SHA-256 -/

/-- Model of `SigningKey::from_bytes(..).verifying_key().to_bytes()`
(`ed25519_dalek`): the public key is a deterministic, collision-free
function of the 32 secret-key bytes; modelled as an injective tagging of
the secret bytes (ideal asymmetric-scheme assumption). -/
def ed25519_verifying_key (secret : Bytes) : Bytes := 0 :: secret

/-- Model of `signing_key.sign(payload)` (`ed25519_dalek`): ed25519
signing is deterministic in (secret key, payload); modelled as an
injective pairing of the two. -/
def ed25519_sign (secret payload : Bytes) : Bytes :=
  secret.length :: (secret ++ payload)

/-- Comma-join of rendered items, helper for the textual models below. -/
def joinComma (items : List String) : String := String.intercalate "," items

/-- Model of `BASE64.encode` (the `base64` crate): an injective textual
rendering of a byte string; the exact alphabet is irrelevant to every
claim, so the bytes are rendered in decimal. -/
def base64_encode (bytes : Bytes) : String := joinComma (bytes.map natDecimal)

/-- Entropy byte lengths accepted by `bip39::Mnemonic::from_entropy`
(12/15/18/21/24-word phrases). -/
def bip39ValidEntropyLen (n : Nat) : Bool :=
  n = 16 || n = 20 || n = 24 || n = 28 || n = 32

/-- Model of `bip39::Mnemonic`: the mnemonic phrase is equivalent data to
its entropy bytes (the codec is a bijection between valid entropy and
word sequences), so the model carries the entropy. -/
structure Mnemonic where
  entropy : Bytes
deriving DecidableEq

/-- Model of `bip39::Mnemonic::from_entropy`: succeeds exactly on the
valid entropy lengths. -/
def mnemonic_from_entropy (e : Bytes) : Except String Mnemonic :=
  if bip39ValidEntropyLen e.length then .ok ⟨e⟩ else .error "invalid entropy length"

/-- Model of `mnemonic.to_entropy()`. -/
def mnemonic_to_entropy (m : Mnemonic) : Bytes := m.entropy

/-- Model of `mnemonic.to_string()`: the word-list rendering, injective
in the entropy. -/
def mnemonic_to_string (m : Mnemonic) : String :=
  "words:" ++ joinComma (m.entropy.map natDecimal)

/-- Model of `format!("{:x}", Sha256::digest(s.as_bytes()))` (the `sha2`
crate): SHA-256 is deterministic and collision-free; modelled as an
injective function of the input string (ideal-hash assumption — the
64-hex-character width of the real digest plays no role in the claims). -/
def sha256_hex (s : String) : String := "sha256:" ++ s

/- ### Data model: `KeyPair` and `KeyStore` -/

/-- Struct `KeyPair` (main.rs:100-106). -/
structure KeyPair where
  public_key : Bytes
  public_key_string : String
  encrypted_secret_key : Option EncryptedSecretKey
deriving DecidableEq

/-- Struct `KeyStore` (main.rs:115-118): `keys: HashMap<String, KeyPair>`.
A Rust `HashMap` is a finite map together with an iteration order that is
*not* a function of its content (it depends on the per-instance random
hasher seed and on the insertion history); the model is therefore the
entry list in iteration order.  Two stores are "equal" in the `HashMap`
sense when they hold the same name-to-`KeyPair` mapping
(`sameContent` below), regardless of order. -/
structure KeyStore where
  keys : List (String × KeyPair)
deriving DecidableEq

/-- Model of `HashMap::get` on the iteration-order entry list. -/
def lookupKey (name : String) : List (String × KeyPair) → Option KeyPair
  | [] => none
  | (n, kp) :: rest => if n = name then some kp else lookupKey name rest

/-- Model of `HashMap::contains_key`. -/
def containsKey (keys : List (String × KeyPair)) (name : String) : Bool :=
  (lookupKey name keys).isSome

/-- Model of `HashMap::insert`: replaces the value in place if the name is
present, otherwise adds the entry (the position of a fresh entry in the
real iteration order is arbitrary; the model appends). -/
def insertKey (keys : List (String × KeyPair)) (name : String) (kp : KeyPair) :
    List (String × KeyPair) :=
  if containsKey keys name then
    keys.map (fun p => if p.1 = name then (name, kp) else p)
  else keys ++ [(name, kp)]

/-- Content equality of two stores: the `==` / "same mapping" relation of
the spec — every name resolves to the same optional `KeyPair`. -/
def sameContent (s₁ s₂ : KeyStore) : Prop :=
  ∀ name, lookupKey name s₁.keys = lookupKey name s₂.keys

/-- The `HashMap` invariant: names are unique in the entry list. -/
def KeyStore.wf (s : KeyStore) : Prop := (s.keys.map Prod.fst).Nodup

instance (s : KeyStore) : Decidable s.wf := by
  unfold KeyStore.wf
  exact List.nodupDecidable _

/- ### JSON layer (`serde_json`) -/

/-- JSON values, as produced and consumed by `serde_json` for the store
file.  Object fields are kept in serialization order (for a serialized
`HashMap`, its iteration order).  Only the constructors the store file
uses are modelled. -/
inductive Json where
  | num (n : Nat)
  | str (s : String)
  | arr (elems : List Json)
  | obj (fields : List (String × Json))

mutual
/-- Compact rendering of a JSON value — `serde_json::to_string`
(main.rs:355).  String escaping is elided: store names and base64 strings
contain no characters needing escapes. -/
def renderJson : Json → String
  | .num n => natDecimal n
  | .str s => "\"" ++ s ++ "\""
  | .arr elems => "[" ++ renderJsonList elems ++ "]"
  | .obj fields => "\x7b" ++ renderJsonFields fields ++ "\x7d"
def renderJsonList : List Json → String
  | [] => ""
  | [j] => renderJson j
  | j :: rest => renderJson j ++ "," ++ renderJsonList rest
def renderJsonFields : List (String × Json) → String
  | [] => ""
  | [(k, v)] => "\"" ++ k ++ "\":" ++ renderJson v
  | (k, v) :: rest => "\"" ++ k ++ "\":" ++ renderJson v ++ "," ++ renderJsonFields rest
end

/-- Serialization of an `EncryptedSecretKey` (serde derive on
main.rs:108-113). -/
def encToJson (e : EncryptedSecretKey) : Json :=
  .obj [("salt", .arr (e.salt.map .num)),
        ("nonce", .arr (e.nonce.map .num)),
        ("encrypted_data", .arr (e.encrypted_data.map .num))]

/-- Serialization of a `KeyPair` (serde derive on main.rs:100-106); the
`encrypted_secret_key` field is skipped when `None`
(`skip_serializing_if = "Option::is_none"`). -/
def keyPairToJson (kp : KeyPair) : Json :=
  .obj ([("public_key", .arr (kp.public_key.map .num)),
         ("public_key_string", .str kp.public_key_string)] ++
    (match kp.encrypted_secret_key with
     | none => []
     | some e => [("encrypted_secret_key", encToJson e)]))

/-- Serialization of the `KeyStore` struct (serde derive on
main.rs:115-118): one `keys` object whose fields follow the map's
iteration order. -/
def storeToJson (s : KeyStore) : Json :=
  .obj [("keys", .obj (s.keys.map (fun p => (p.1, keyPairToJson p.2))))]

/-- Field access in a deserialized JSON object (serde matches fields by
name, in any order; unknown fields are ignored by default). -/
def lookupField (name : String) : List (String × Json) → Option Json
  | [] => none
  | (k, v) :: rest => if k = name then some v else lookupField name rest

/-- Element-wise deserialization of a JSON array of numbers. -/
def bytesFromJsonList : List Json → Except String Bytes
  | [] => .ok []
  | .num n :: rest => (bytesFromJsonList rest).map (n :: ·)
  | _ :: _ => .error "invalid type: expected a number"

/-- Deserialization of a byte-array field (`Vec<u8>`). -/
def bytesFromJson : Json → Except String Bytes
  | .arr elems => bytesFromJsonList elems
  | _ => .error "invalid type: expected a byte array"

/-- Deserialization of an `EncryptedSecretKey`. -/
def encFromJson : Json → Except String EncryptedSecretKey
  | .obj fields =>
    match lookupField "salt" fields with
    | none => .error "missing field salt"
    | some jsalt =>
      match lookupField "nonce" fields with
      | none => .error "missing field nonce"
      | some jnonce =>
        match lookupField "encrypted_data" fields with
        | none => .error "missing field encrypted_data"
        | some jdata =>
          match bytesFromJson jsalt, bytesFromJson jnonce, bytesFromJson jdata with
          | .ok salt, .ok nonce, .ok data => .ok ⟨salt, nonce, data⟩
          | .error e, _, _ => .error e
          | _, .error e, _ => .error e
          | _, _, .error e => .error e
  | _ => .error "invalid type: expected EncryptedSecretKey"

/-- Deserialization of a `KeyPair`; the absent `encrypted_secret_key`
field deserializes to `None`. -/
def keyPairFromJson : Json → Except String KeyPair
  | .obj fields =>
    match lookupField "public_key" fields with
    | none => .error "missing field public_key"
    | some jpk =>
      match lookupField "public_key_string" fields with
      | some (.str pkStr) =>
        (match bytesFromJson jpk with
         | .error e => .error e
         | .ok pk =>
           match lookupField "encrypted_secret_key" fields with
           | none => .ok ⟨pk, pkStr, none⟩
           | some jenc =>
             match encFromJson jenc with
             | .ok e => .ok ⟨pk, pkStr, some e⟩
             | .error e => .error e)
      | some _ => .error "invalid type: expected a string"
      | none => .error "missing field public_key_string"
  | _ => .error "invalid type: expected KeyPair"

/-- Deserialization of the entries of the `keys` object, in document
order. -/
def entriesFromJson : List (String × Json) → Except String (List (String × KeyPair))
  | [] => .ok []
  | (name, j) :: rest =>
    match keyPairFromJson j with
    | .error e => .error e
    | .ok kp => (entriesFromJson rest).map ((name, kp) :: ·)

/-- The `HashMap` construction from deserialized entries: serde inserts the
entries one by one (a repeated name overwrites, as `HashMap::insert`
does). -/
def buildKeys : List (String × KeyPair) → List (String × KeyPair) → List (String × KeyPair)
  | acc, [] => acc
  | acc, (name, kp) :: rest => buildKeys (insertKey acc name kp) rest

/-- Deserialization of a `KeyStore` — `serde_json::from_str`
(main.rs:175).  Fails on anything not shaped like the expected structure;
this is the `StoreCorruptError` of the spec. -/
def storeFromJson : Json → Except String KeyStore
  | .obj fields =>
    match lookupField "keys" fields with
    | some (.obj entries) =>
      match entriesFromJson entries with
      | .ok keyList => .ok ⟨buildKeys [] keyList⟩
      | .error e => .error e
    | some _ => .error "invalid type: expected a map"
    | none => .error "missing field keys"
  | _ => .error "invalid type: expected KeyStore"

/- ### The store file: load, save, fingerprint -/

/-- Function `load_key_store` (main.rs:171-182).  The store file is modelled by
its contents: `none` when `key_store.json` is absent, `some j` when
present holding the JSON value `j` (the text layer of `serde_json` is
elided; a file that is not valid JSON at all corresponds to a `j` of the
wrong shape).  An absent file yields the empty store. -/
def load_key_store (file : Option Json) : Except String KeyStore :=
  match file with
  | none => .ok ⟨[]⟩
  | some j => storeFromJson j

/-- Function `save_key_store` (main.rs:184-189): serializes the full store and
overwrites the file (`to_string_pretty` differs from `renderJson` only in
whitespace, which the JSON value elides). -/
def save_key_store (s : KeyStore) : Option Json := some (storeToJson s)

/-- Function `calculate_key_store_hash` (main.rs:353-357): SHA-256 hex digest of
the compact serialization — which follows the `HashMap` iteration
order. -/
def calculate_key_store_hash (s : KeyStore) : String :=
  sha256_hex (renderJson (storeToJson s))

/- ### Basic facts about `lookupKey` / `containsKey` / `insertKey` -/

theorem lookupKey_cons (n name : String) (kp : KeyPair) (tl : List (String × KeyPair)) :
    lookupKey name ((n, kp) :: tl) = if n = name then some kp else lookupKey name tl := rfl

theorem lookupKey_eq_none_iff (name : String) (keys : List (String × KeyPair)) :
    lookupKey name keys = none ↔ name ∉ keys.map Prod.fst := by
  induction keys with
  | nil => simp [lookupKey]
  | cons hd tl ih =>
    obtain ⟨n, kp⟩ := hd
    by_cases h : n = name
    · subst h
      rw [lookupKey_cons, if_pos rfl]
      simp
    · rw [lookupKey_cons, if_neg h]
      simp only [List.map_cons, List.mem_cons]
      rw [ih]
      constructor
      · intro hn hor
        rcases hor with heq | hmem
        · exact h heq.symm
        · exact hn hmem
      · intro hn hmem
        exact hn (Or.inr hmem)

theorem lookupKey_mem {name : String} {kp : KeyPair} {keys : List (String × KeyPair)}
    (h : lookupKey name keys = some kp) : (name, kp) ∈ keys := by
  induction keys with
  | nil => simp [lookupKey] at h
  | cons hd tl ih =>
    obtain ⟨n, kp'⟩ := hd
    by_cases hn : n = name
    · subst hn
      rw [lookupKey_cons, if_pos rfl] at h
      obtain rfl : kp' = kp := Option.some.injEq .. ▸ h
      exact List.mem_cons_self _ _
    · rw [lookupKey_cons, if_neg hn] at h
      exact List.mem_cons_of_mem _ (ih h)

theorem mem_lookupKey {name : String} {kp : KeyPair} {keys : List (String × KeyPair)}
    (hwf : (keys.map Prod.fst).Nodup) (h : (name, kp) ∈ keys) :
    lookupKey name keys = some kp := by
  induction keys with
  | nil => simp at h
  | cons hd tl ih =>
    obtain ⟨n, kp'⟩ := hd
    simp only [List.map_cons, List.nodup_cons] at hwf
    rcases List.mem_cons.mp h with heq | hmem
    · obtain ⟨h1, h2⟩ := Prod.mk.injEq .. ▸ heq
      subst h1
      rw [lookupKey_cons, if_pos rfl, h2]
    · have hne : n ≠ name := by
        intro he
        subst he
        exact hwf.1 (List.mem_map.mpr ⟨(n, kp), hmem, rfl⟩)
      rw [lookupKey_cons, if_neg hne]
      exact ih hwf.2 hmem

theorem insertKey_not_contains {keys : List (String × KeyPair)} {name : String}
    (kp : KeyPair) (h : containsKey keys name = false) :
    insertKey keys name kp = keys ++ [(name, kp)] := by
  simp [insertKey, h]

theorem containsKey_false_of_not_mem {keys : List (String × KeyPair)} {name : String}
    (h : name ∉ keys.map Prod.fst) : containsKey keys name = false := by
  simp [containsKey, (lookupKey_eq_none_iff name keys).mpr h]

/- ### Round trip of the JSON layer -/

theorem bytesFromJsonList_map (bs : Bytes) :
    bytesFromJsonList (bs.map Json.num) = .ok bs := by
  induction bs with
  | nil => rfl
  | cons b rest ih => simp [bytesFromJsonList, ih, Except.map]

theorem bytesFromJson_map (bs : Bytes) :
    bytesFromJson (.arr (bs.map Json.num)) = .ok bs := by
  simp [bytesFromJson, bytesFromJsonList_map]

theorem encFromJson_encToJson (e : EncryptedSecretKey) :
    encFromJson (encToJson e) = .ok e := by
  simp [encToJson, encFromJson, lookupField, bytesFromJson_map]

theorem keyPairFromJson_keyPairToJson (kp : KeyPair) :
    keyPairFromJson (keyPairToJson kp) = .ok kp := by
  obtain ⟨pk, pkStr, enc⟩ := kp
  cases enc with
  | none => simp [keyPairToJson, keyPairFromJson, lookupField, bytesFromJson_map]
  | some e =>
    simp [keyPairToJson, keyPairFromJson, lookupField, bytesFromJson_map,
      encFromJson_encToJson]

theorem entriesFromJson_map (keys : List (String × KeyPair)) :
    entriesFromJson (keys.map (fun p => (p.1, keyPairToJson p.2))) = .ok keys := by
  induction keys with
  | nil => rfl
  | cons hd tl ih =>
    obtain ⟨n, kp⟩ := hd
    simp [entriesFromJson, keyPairFromJson_keyPairToJson, ih, Except.map]

theorem buildKeys_append (keys : List (String × KeyPair)) :
    ∀ acc, ((acc ++ keys).map Prod.fst).Nodup → buildKeys acc keys = acc ++ keys := by
  induction keys with
  | nil => intro acc _; simp [buildKeys]
  | cons hd tl ih =>
    intro acc hnd
    obtain ⟨n, kp⟩ := hd
    have hnotmem : n ∉ acc.map Prod.fst := by
      intro hmem
      have : ¬ (acc.map Prod.fst ++ (n :: tl.map Prod.fst)).Nodup := by
        intro hx
        exact (List.disjoint_of_nodup_append hx) hmem (List.mem_cons_self _ _)
      simp only [List.map_append, List.map_cons] at hnd
      exact this hnd
    rw [buildKeys, insertKey_not_contains kp (containsKey_false_of_not_mem hnotmem)]
    have := ih (acc ++ [(n, kp)]) (by simpa using hnd)
    simpa using this

/-- C8: for every well-formed key store value — including the empty store
and stores whose entries hold secrets encrypted with the empty password —
saving it and then loading it yields an equal store. -/
theorem C8_store_round_trip (s : KeyStore) (hwf : s.wf) :
    load_key_store (save_key_store s) = .ok s := by
  have h1 : lookupField "keys"
      [("keys", Json.obj (s.keys.map (fun p => (p.1, keyPairToJson p.2))))] =
      some (Json.obj (s.keys.map (fun p => (p.1, keyPairToJson p.2)))) := by
    rw [lookupField, if_pos rfl]
  simp only [load_key_store, save_key_store, storeToJson, storeFromJson, h1,
    entriesFromJson_map]
  rw [buildKeys_append s.keys [] (by simpa using hwf)]
  simp

/-- C8 witness: a two-entry store with one password-less
(empty-password-encrypted) entry and one entry without a stored secret
survives the save/load round trip. -/
theorem C8_store_round_trip_witness :
    (KeyStore.wf ⟨[("batch_key_0", ⟨[1], "pk1", some (encrypt_secret_key [9] "" [5] [6])⟩),
                   ("alice", ⟨[2], "pk2", none⟩)]⟩) ∧
    load_key_store (save_key_store
      ⟨[("batch_key_0", ⟨[1], "pk1", some (encrypt_secret_key [9] "" [5] [6])⟩),
        ("alice", ⟨[2], "pk2", none⟩)]⟩) =
      .ok ⟨[("batch_key_0", ⟨[1], "pk1", some (encrypt_secret_key [9] "" [5] [6])⟩),
            ("alice", ⟨[2], "pk2", none⟩)]⟩ :=
  ⟨by decide, C8_store_round_trip _ (by decide)⟩

/-- Decidable error test for `Except`, used to state the error clauses. -/
def exceptIsError {ε α : Type} : Except ε α → Bool
  | .error _ => true
  | .ok _ => false

/-- C9: `load_key_store` returns the empty store when the file is
absent, the parsed store when the file parses as the expected structure,
and fails (the store-corrupt error) exactly when the file is present but
does not parse as the expected structure. -/
theorem C9_load_behavior :
    load_key_store none = .ok ⟨[]⟩ ∧
    (∀ j s, storeFromJson j = .ok s → load_key_store (some j) = .ok s) ∧
    (∀ file, exceptIsError (load_key_store file) = true ↔
      ∃ j, file = some j ∧ exceptIsError (storeFromJson j) = true) := by
  refine ⟨rfl, fun j s h => h, fun file => ?_⟩
  cases file with
  | none => simp [load_key_store, exceptIsError]
  | some j => simp [load_key_store]

/-- C9 witness: a present file holding `{"keys":{}}` loads as the empty
store, and a present file holding the number `0` (not the expected
structure) makes the load fail. -/
theorem C9_load_behavior_witness :
    load_key_store (some (.obj [("keys", .obj [])])) = .ok ⟨[]⟩ ∧
    exceptIsError (load_key_store (some (.num 0))) = true :=
  ⟨C9_load_behavior.2.1 (.obj [("keys", .obj [])]) ⟨[]⟩ rfl,
   (C9_load_behavior.2.2 (some (.num 0))).mpr ⟨.num 0, rfl, rfl⟩⟩

/- ### C5: determinism of the store fingerprint -/

/-- Two stores with the same name-to-`KeyPair` content but opposite
`HashMap` iteration orders (within one Rust process, two `HashMap`s with
equal content routinely iterate in different orders: each map carries its
own random hasher seed). -/
def c5StoreAB : KeyStore :=
  ⟨[("a", ⟨[1], "pk1", none⟩), ("b", ⟨[2], "pk2", none⟩)]⟩

/-- The same two entries in the opposite iteration order. -/
def c5StoreBA : KeyStore :=
  ⟨[("b", ⟨[2], "pk2", none⟩), ("a", ⟨[1], "pk1", none⟩)]⟩

/-- C5 counterexample: two well-formed stores with equal content (the
same name-to-`KeyPair` mapping) whose fingerprints differ, because
`calculate_key_store_hash` hashes the `serde_json` serialization, which
follows the content-independent `HashMap` iteration order. -/
theorem C5_fingerprint_not_content_deterministic :
    c5StoreAB.wf ∧ c5StoreBA.wf ∧ sameContent c5StoreAB c5StoreBA ∧
      calculate_key_store_hash c5StoreAB ≠ calculate_key_store_hash c5StoreBA := by
  refine ⟨by decide, by decide, ?_, by decide⟩
  intro name
  by_cases ha : "a" = name
  · subst ha; decide
  · by_cases hb : "b" = name
    · subst hb; decide
    · simp [c5StoreAB, c5StoreBA, lookupKey_cons, if_neg ha, if_neg hb, lookupKey]

/-- C5 amended: the fingerprint is deterministic in the serialized entry
sequence — stores presenting equal entries in an equal iteration order
have equal fingerprints, and for stores with at most one entry equal
content alone already forces equal fingerprints.  (With two or more
entries, equal content with different iteration orders can give different
fingerprints, as the counterexample shows.) -/
theorem C5_fingerprint_deterministic_same_order (s₁ s₂ : KeyStore)
    (_hwf₁ : s₁.wf) (hwf₂ : s₂.wf) (hc : sameContent s₁ s₂)
    (hord : s₁.keys = s₂.keys ∨ s₁.keys.length ≤ 1) :
    calculate_key_store_hash s₁ = calculate_key_store_hash s₂ := by
  rcases hord with hord | hlen
  · unfold calculate_key_store_hash storeToJson
    rw [hord]
  · have hkeys : s₁.keys = s₂.keys := by
      match h1 : s₁.keys, hlen with
      | [], _ =>
        cases h2 : s₂.keys with
        | nil => rfl
        | cons hd tl =>
          exfalso
          obtain ⟨n, kp⟩ := hd
          have hs2 : lookupKey n s₂.keys = some kp := by
            rw [h2, lookupKey_cons, if_pos rfl]
          have hs1 : lookupKey n s₁.keys = none := by rw [h1]; rfl
          rw [hc n, hs2] at hs1
          exact Option.noConfusion hs1
      | [(n, kp)], _ =>
        have hs1 : lookupKey n s₁.keys = some kp := by
          rw [h1, lookupKey_cons, if_pos rfl]
        have hall : ∀ q ∈ s₂.keys, q = (n, kp) := by
          intro q hq
          obtain ⟨m, km⟩ := q
          have hm2 : lookupKey m s₂.keys = some km := mem_lookupKey hwf₂ hq
          have hm1 : lookupKey m s₁.keys = some km := by rw [hc m]; exact hm2
          by_cases hmn : n = m
          · subst hmn
            rw [hs1] at hm1
            obtain rfl : kp = km := Option.some.injEq .. ▸ hm1
            rfl
          · exfalso
            rw [h1, lookupKey_cons, if_neg hmn] at hm1
            exact Option.noConfusion hm1
        have hn2 : lookupKey n s₂.keys = some kp := by rw [← hc n]; exact hs1
        have hmem : (n, kp) ∈ s₂.keys := lookupKey_mem hn2
        cases h2 : s₂.keys with
        | nil => rw [h2] at hmem; simp at hmem
        | cons hd tl =>
          have hhd : hd = (n, kp) := hall hd (h2 ▸ List.mem_cons_self _ _)
          cases tl with
          | nil => rw [hhd]
          | cons hd2 tl2 =>
            exfalso
            have hhd2 : hd2 = (n, kp) :=
              hall hd2 (h2 ▸ List.mem_cons_of_mem _ (List.mem_cons_self _ _))
            have := hwf₂
            unfold KeyStore.wf at this
            rw [h2, hhd, hhd2] at this
            simp at this
    unfold calculate_key_store_hash storeToJson
    rw [hkeys]

/-- C5 amended witness: two concrete singleton stores with equal content
get the same fingerprint. -/
theorem C5_fingerprint_deterministic_same_order_witness :
    calculate_key_store_hash ⟨[("a", ⟨[1], "pk1", none⟩)]⟩ =
      calculate_key_store_hash ⟨[("a", ⟨[1], "pk1", none⟩)]⟩ :=
  C5_fingerprint_deterministic_same_order _ _ (by decide) (by decide)
    (fun _ => rfl) (Or.inr (by decide))

/- ### Signer: `sign_payload` and the password session cache -/

/-- Tail of `sign_payload` after the password has been obtained
(main.rs:404-413): decrypt the secret, check the 32-byte length
(`try_into`), sign.  `cacheOut` is the state of `PASSWORD_CACHE` at that
point. -/
def finishSign (enc : EncryptedSecretKey) (password : String)
    (cacheOut : Option (String × String)) (payload : Bytes) :
    Option (String × String) × Except String Bytes :=
  match decrypt_secret_key enc password with
  | .error e => (cacheOut, .error e)
  | .ok sk =>
    if sk.length = 32 then (cacheOut, .ok (ed25519_sign sk payload))
    else (cacheOut, .error "Invalid secret key length")

/-- Function `sign_payload` (main.rs:359-414), with the process state made
explicit.  Arguments:

* `loads i` — the content of the key store file at the `i`-th
  `load_key_store()` call of this `sign_payload` invocation (the
  recursive retry re-loads the file, which may have changed mid-call);
  load errors are orthogonal to the claims and elided.
* `promptPw` — the password the user would type at the (at most one)
  `prompt_password` of this invocation.
* `fuel` — recursion budget for the fingerprint-mismatch retry
  (main.rs:379-383); `none` in the result means the budget was exhausted
  by re-entrant calls.
* `cache` — the state of the `PASSWORD_CACHE` mutex cell:
  `(password, key store hash)` or empty.

Returns the cache state at exit paired with the `Result` of the call. -/
def signPayloadAux (loads : Nat → KeyStore) (promptPw : String) (payload : Bytes)
    (keyName : String) :
    Nat → Nat → Option (String × String) → Option (Option (String × String) × Except String Bytes)
  | 0, _, _ => none
  | fuel + 1, attempt, cache =>
    let store := loads attempt
    let storeHash := calculate_key_store_hash store
    match lookupKey keyName store.keys with
    | none => some (cache, .error ("Key pair '" ++ keyName ++ "' not found"))
    | some kp =>
      match kp.encrypted_secret_key with
      | none => some (cache, .error ("Secret key not found or not encrypted for '" ++
          keyName ++ "'"))
      | some enc =>
        match cache with
        | some (storedPassword, storedHash) =>
          if storedHash = storeHash then
            some (finishSign enc storedPassword (some (storedPassword, storedHash)) payload)
          else
            signPayloadAux loads promptPw payload keyName fuel (attempt + 1) none
        | none =>
          match decrypt_secret_key enc promptPw with
          | .error e => some (none, .error ("Invalid password: " ++ e))
          | .ok _ => some (finishSign enc promptPw (some (promptPw, storeHash)) payload)

/-- The `sign_payload` entry point: the source's recursion can re-enter at
most once (the retry clears the cache first), so fuel 2 is the budget of
the real call; C4 proves it is never exhausted. -/
def sign_payload (loads : Nat → KeyStore) (promptPw : String) (payload : Bytes)
    (keyName : String) (cache : Option (String × String)) :
    Option (Option (String × String) × Except String Bytes) :=
  signPayloadAux loads promptPw payload keyName 2 0 cache

theorem signPayloadAux_none_cache_fuel (loads : Nat → KeyStore) (promptPw : String)
    (payload : Bytes) (keyName : String) (fuel attempt : Nat) :
    signPayloadAux loads promptPw payload keyName (fuel + 1) attempt none =
      signPayloadAux loads promptPw payload keyName 1 attempt none := by
  rfl

theorem signPayloadAux_none_cache_isSome (loads : Nat → KeyStore) (promptPw : String)
    (payload : Bytes) (keyName : String) (attempt : Nat) :
    (signPayloadAux loads promptPw payload keyName 1 attempt none).isSome = true := by
  rw [signPayloadAux]
  cases hl : lookupKey keyName (loads attempt).keys with
  | none => simp only [hl, Option.isSome_some]
  | some kp =>
    simp only [hl]
    cases he : kp.encrypted_secret_key with
    | none => simp only [he, Option.isSome_some]
    | some enc =>
      simp only [he]
      cases hd : decrypt_secret_key enc promptPw <;> simp only [hd, Option.isSome_some]

/-- C3: when the session cache holds `(p, f1)` and the current store
fingerprint `f2` differs from `f1`, and the call reaches the password
acquisition step (the named key exists and stores an encrypted secret),
`sign_payload` behaves exactly as if no cache entry existed: the stale
entry is invalidated, the user is re-prompted, and the cached password
`p` is never used for decryption nor returned (the result does not
depend on `p` at all). -/
theorem C3_cache_invalidation (store : KeyStore) (promptPw : String) (payload : Bytes)
    (keyName : String) (p f1 : String) (kp : KeyPair) (enc : EncryptedSecretKey)
    (hlookup : lookupKey keyName store.keys = some kp)
    (henc : kp.encrypted_secret_key = some enc)
    (hmismatch : f1 ≠ calculate_key_store_hash store) :
    sign_payload (fun _ => store) promptPw payload keyName (some (p, f1)) =
      sign_payload (fun _ => store) promptPw payload keyName none := by
  unfold sign_payload
  conv_lhs => rw [signPayloadAux]
  simp only [hlookup, henc, if_neg hmismatch]
  have hshift : signPayloadAux (fun _ => store) promptPw payload keyName 1 1 none =
      signPayloadAux (fun _ => store) promptPw payload keyName 1 0 none := rfl
  exact hshift.trans
    (signPayloadAux_none_cache_fuel (fun _ => store) promptPw payload keyName 1 0).symm

/-- C3 witness: with a concrete one-entry store, a stale cached hash and
a cached password different from the prompted one, the mismatch call
equals the empty-cache call. -/
theorem C3_cache_invalidation_witness :
    sign_payload
      (fun _ => ⟨[("k", ⟨[0, 1], "pk", some (encrypt_secret_key [1] "pw" [2] [3])⟩)]⟩)
      "pw" [5] "k" (some ("stale-password", "stale-hash")) =
    sign_payload
      (fun _ => ⟨[("k", ⟨[0, 1], "pk", some (encrypt_secret_key [1] "pw" [2] [3])⟩)]⟩)
      "pw" [5] "k" none :=
  C3_cache_invalidation _ "pw" [5] "k" "stale-password" "stale-hash" _ _ rfl rfl
    (by decide)

/-- C4: the fingerprint-mismatch retry of `sign_payload` is bounded to
one re-entry for every input — even a store that keeps changing between
the two loads cannot trigger a second retry, because the re-entrant call
starts with an empty cache.  Fuel 2 is therefore never exhausted, and
adding fuel never changes the result: the recursion terminates. -/
theorem C4_retry_bounded (loads : Nat → KeyStore) (promptPw : String) (payload : Bytes)
    (keyName : String) (cache : Option (String × String)) :
    (sign_payload loads promptPw payload keyName cache).isSome = true ∧
      ∀ extra, signPayloadAux loads promptPw payload keyName (2 + extra) 0 cache =
        sign_payload loads promptPw payload keyName cache := by
  constructor
  · unfold sign_payload
    rw [signPayloadAux]
    cases hl : lookupKey keyName (loads 0).keys with
    | none => simp only [hl, Option.isSome_some]
    | some kp =>
      simp only [hl]
      cases he : kp.encrypted_secret_key with
      | none => simp only [he, Option.isSome_some]
      | some enc =>
        simp only [he]
        cases cache with
        | some pair =>
          obtain ⟨storedPassword, storedHash⟩ := pair
          by_cases h : storedHash = calculate_key_store_hash (loads 0)
          · simp only [if_pos h, Option.isSome_some]
          · simp only [if_neg h]
            exact signPayloadAux_none_cache_isSome loads promptPw payload keyName 1
        | none =>
          cases hd : decrypt_secret_key enc promptPw <;>
            simp only [hd, Option.isSome_some]
  · intro extra
    unfold sign_payload
    have h2 : 2 + extra = (1 + extra) + 1 := by omega
    rw [h2, signPayloadAux, signPayloadAux]
    cases hl : lookupKey keyName (loads 0).keys with
    | none => simp only [hl]
    | some kp =>
      simp only [hl]
      cases he : kp.encrypted_secret_key with
      | none => simp only [he]
      | some enc =>
        simp only [he]
        cases cache with
        | some pair =>
          obtain ⟨storedPassword, storedHash⟩ := pair
          by_cases h : storedHash = calculate_key_store_hash (loads 0)
          · simp only [if_pos h]
          · simp only [if_neg h]
            cases extra with
            | zero => rfl
            | succ k =>
              exact signPayloadAux_none_cache_fuel loads promptPw payload keyName _ 1
        | none =>
          cases hd : decrypt_secret_key enc promptPw <;> simp only [hd]

/- ### Export (`export_key`) -/

/-- Observable outcome of one `export_key` run: the `Result<()>` of the
command, the mnemonic printed to the user (if any), and the store after
the run (`export_key` never calls `save_key_store`, so the model carries
the store through unchanged, mirroring the absence of a write). -/
structure ExportOutcome where
  result : Except String Unit
  revealed : Option String
  storeAfter : KeyStore

/-- Function `export_key` (main.rs:425-459): looks up the pair, requires a stored
encrypted secret, prompts for a password (passed explicitly), decrypts;
on decryption failure it *prints* an error and returns `Ok(())`
(main.rs:442-448); on success it derives and prints the mnemonic. -/
def export_key (store : KeyStore) (name : String) (password : String) : ExportOutcome :=
  match lookupKey name store.keys with
  | none => ⟨.error ("Key pair '" ++ name ++ "' not found"), none, store⟩
  | some kp =>
    match kp.encrypted_secret_key with
    | none => ⟨.error ("Secret key not found or not encrypted for '" ++ name ++
        "'. Cannot export mnemonic."), none, store⟩
    | some enc =>
      match decrypt_secret_key enc password with
      | .error _ => ⟨.ok (), none, store⟩
      | .ok secretKeyBytes =>
        match mnemonic_from_entropy secretKeyBytes with
        | .error e => ⟨.error ("Failed to generate mnemonic: " ++ e), none, store⟩
        | .ok m => ⟨.ok (), some (mnemonic_to_string m), store⟩

/-- C6: exporting an existing key pair with a stored encrypted secret,
when decryption with the supplied password fails, reports the failure to
the user but still returns success (`Ok`) at the workflow level, leaves
the store unchanged and reveals no mnemonic. -/
theorem C6_export_swallows_auth_failure (store : KeyStore) (name password : String)
    (kp : KeyPair) (enc : EncryptedSecretKey) (e : String)
    (hlookup : lookupKey name store.keys = some kp)
    (henc : kp.encrypted_secret_key = some enc)
    (hfail : decrypt_secret_key enc password = .error e) :
    export_key store name password = ⟨.ok (), none, store⟩ := by
  simp only [export_key, hlookup, henc, hfail]

/-- C6 witness: a concrete store whose only secret is encrypted under
"right"; exporting with password "wrong" yields `Ok` with no mnemonic
revealed and the store unchanged. -/
theorem C6_export_swallows_auth_failure_witness :
    export_key ⟨[("k", ⟨[4], "pk", some (encrypt_secret_key [1, 2] "right" [5] [6])⟩)]⟩
      "k" "wrong" =
      ⟨.ok (), none, ⟨[("k", ⟨[4], "pk", some (encrypt_secret_key [1, 2] "right" [5] [6])⟩)]⟩⟩ :=
  C6_export_swallows_auth_failure _ "k" "wrong" _ _ "Decryption failed" rfl rfl
    (C2_decrypt_wrong_password_fails [1, 2] "right" "wrong" [5] [6] (by decide))

/- ### Import (`import_key`) -/

/-- Function `import_key` (main.rs:461-517), with the interactive inputs passed
explicitly: `mnemonicInput` is the result of `bip39::Mnemonic::from_str`
on the line the user typed (the prompt text asks for "12 or 24 words"),
`password`/`confirm` are the two password prompts, and `salt`/`nonce`
are the randomness drawn inside `encrypt_secret_key`.  Returns the new
store on success; on any error the command aborts before
`save_key_store`, so the store file is unchanged. -/
def import_key (store : KeyStore) (name : String)
    (mnemonicInput : Except String Mnemonic) (password confirm : String)
    (salt nonce : Bytes) : Except String KeyStore :=
  if containsKey store.keys name then
    .error ("Key pair with name '" ++ name ++ "' already exists")
  else
    match mnemonicInput with
    | .error e => .error ("Invalid mnemonic phrase: " ++ e)
    | .ok m =>
      let secret_key_bytes := mnemonic_to_entropy m
      if secret_key_bytes.length = 32 then
        if password = confirm then
          let public_key_bytes := ed25519_verifying_key secret_key_bytes
          let public_key_string := base64_encode public_key_bytes
          let encrypted_secret := encrypt_secret_key secret_key_bytes password salt nonce
          .ok ⟨insertKey store.keys name
            ⟨public_key_bytes, public_key_string, some encrypted_secret⟩⟩
        else .error "Passwords do not match"
      else .error "Invalid secret key length"

/-- C10: `import_key` accepts only mnemonics whose decoded entropy is
exactly 32 bytes (a 24-word phrase).  Every syntactically valid mnemonic
of any other entropy length — e.g. a valid 12-word phrase, which decodes
to 16 bytes — fails with the invalid-secret-key-length error before the
password is even checked, and the store is left unchanged (the error
return aborts the command before any save). -/
theorem C10_import_rejects_non_32_byte_mnemonics (store : KeyStore) (name : String)
    (m : Mnemonic) (password confirm : String) (salt nonce : Bytes)
    (hfree : containsKey store.keys name = false)
    (_hvalid : bip39ValidEntropyLen m.entropy.length = true)
    (hlen : m.entropy.length ≠ 32) :
    import_key store name (.ok m) password confirm salt nonce =
      .error "Invalid secret key length" := by
  simp only [import_key, hfree, Bool.false_eq_true, if_false, mnemonic_to_entropy,
    if_neg hlen]

/-- C10 witness: a valid 12-word mnemonic (16 bytes of entropy) is
rejected by import with the invalid-secret-key-length error. -/
theorem C10_import_rejects_non_32_byte_mnemonics_witness :
    import_key ⟨[]⟩ "alice" (.ok ⟨List.replicate 16 0⟩) "pw" "pw" [1] [2] =
      .error "Invalid secret key length" :=
  C10_import_rejects_non_32_byte_mnemonics ⟨[]⟩ "alice" ⟨List.replicate 16 0⟩
    "pw" "pw" [1] [2] rfl (by decide) (by decide)

/- ### Batch generation (`batch_gen_keys`) -/

/-- Model of `format!("batch_key_{}", idx)` (main.rs:267, 279). -/
def batchName (n : Nat) : String := "batch_key_" ++ natDecimal n

theorem batchName_injective : Function.Injective batchName := by
  intro a b h
  apply natDecimal_injective
  unfold batchName at h
  have hdata := congrArg String.data h
  rw [String.data_append, String.data_append] at hdata
  exact congrArg String.mk (List.append_cancel_left hdata)

/-- The scan-forward loops of `batch_gen_keys` (main.rs:266-272 and
278-284): starting at candidate index `i`, keep incrementing while
`batch_key_<i>` is already a key of the store.  The source loops until a
free name is found; the store is finite, so the loop terminates within
`keys.length + 1` steps (proved below), which is the fuel the model
passes. -/
def findFreeIdx (keys : List (String × KeyPair)) : Nat → Nat → Nat
  | 0, i => i
  | fuel + 1, i => if containsKey keys (batchName i) then findFreeIdx keys fuel (i + 1) else i

theorem findFreeIdx_ge (keys : List (String × KeyPair)) :
    ∀ fuel i, i ≤ findFreeIdx keys fuel i := by
  intro fuel
  induction fuel with
  | zero => intro i; rw [findFreeIdx]
  | succ fuel ih =>
    intro i
    rw [findFreeIdx]
    by_cases h : containsKey keys (batchName i) = true
    · rw [if_pos h]; exact Nat.le_trans (Nat.le_succ i) (ih (i + 1))
    · rw [if_neg h]

theorem findFreeIdx_min (keys : List (String × KeyPair)) :
    ∀ fuel i j, i ≤ j → j < findFreeIdx keys fuel i →
      containsKey keys (batchName j) = true := by
  intro fuel
  induction fuel with
  | zero =>
    intro i j hij hlt
    rw [findFreeIdx] at hlt
    omega
  | succ fuel ih =>
    intro i j hij hlt
    rw [findFreeIdx] at hlt
    by_cases h : containsKey keys (batchName i) = true
    · rw [if_pos h] at hlt
      by_cases hji : j = i
      · subst hji; exact h
      · exact ih (i + 1) j (by omega) hlt
    · rw [if_neg h] at hlt
      omega

theorem findFreeIdx_window (keys : List (String × KeyPair)) :
    ∀ fuel i, (∃ j, i ≤ j ∧ j < i + fuel ∧ containsKey keys (batchName j) = false) →
      containsKey keys (batchName (findFreeIdx keys fuel i)) = false := by
  intro fuel
  induction fuel with
  | zero =>
    intro i hwin
    obtain ⟨j, h1, h2, _⟩ := hwin
    omega
  | succ fuel ih =>
    intro i hwin
    obtain ⟨j, h1, h2, hfree⟩ := hwin
    rw [findFreeIdx]
    by_cases h : containsKey keys (batchName i) = true
    · rw [if_pos h]
      apply ih (i + 1)
      have hji : j ≠ i := by
        intro he
        rw [he] at hfree
        rw [hfree] at h
        exact Bool.noConfusion h
      exact ⟨j, by omega, by omega, hfree⟩
    · rw [if_neg h]
      cases hb : containsKey keys (batchName i)
      · rfl
      · exact absurd hb h

theorem exists_free_in_window (keys : List (String × KeyPair)) (i : Nat) :
    ∃ j, i ≤ j ∧ j < i + (keys.length + 1) ∧ containsKey keys (batchName j) = false := by
  by_contra hcon
  push_neg at hcon
  have hall : ∀ k < keys.length + 1, batchName (i + k) ∈ keys.map Prod.fst := by
    intro k hk
    have h1 := hcon (i + k) (Nat.le_add_right i k) (by omega)
    have h2 : containsKey keys (batchName (i + k)) = true := by
      cases hb : containsKey keys (batchName (i + k))
      · exact absurd hb h1
      · rfl
    unfold containsKey at h2
    rw [Option.isSome_iff_exists] at h2
    obtain ⟨kp, hkp⟩ := h2
    exact List.mem_map.mpr ⟨(batchName (i + k), kp), lookupKey_mem hkp, rfl⟩
  have hinj : Function.Injective (fun k => batchName (i + k)) := by
    intro a b hab
    have := batchName_injective hab
    omega
  have hnodup : ((List.range (keys.length + 1)).map (fun k => batchName (i + k))).Nodup :=
    (List.nodup_range _).map hinj
  have hsub : ((List.range (keys.length + 1)).map (fun k => batchName (i + k))) ⊆
      keys.map Prod.fst := by
    intro x hx
    obtain ⟨k, hk, rfl⟩ := List.mem_map.mp hx
    exact hall k (List.mem_range.mp hk)
  have hlen := (List.subperm_of_subset hnodup hsub).length_le
  simp only [List.length_map, List.length_range] at hlen
  omega

theorem findFreeIdx_free (keys : List (String × KeyPair)) (i : Nat) :
    containsKey keys (batchName (findFreeIdx keys (keys.length + 1) i)) = false :=
  findFreeIdx_window keys (keys.length + 1) i (exists_free_in_window keys i)

theorem findFreeIdx_of_free {keys : List (String × KeyPair)} {i : Nat} (fuel : Nat)
    (h : containsKey keys (batchName i) = false) :
    findFreeIdx keys (fuel + 1) i = i := by
  rw [findFreeIdx, h]
  simp

theorem lookupKey_append_some {n : String} {kp : KeyPair}
    {keys rest : List (String × KeyPair)} (h : lookupKey n keys = some kp) :
    lookupKey n (keys ++ rest) = some kp := by
  induction keys with
  | nil => simp [lookupKey] at h
  | cons hd tl ih =>
    obtain ⟨a, b⟩ := hd
    rw [List.cons_append, lookupKey_cons]
    rw [lookupKey_cons] at h
    by_cases ha : a = n
    · rw [if_pos ha] at h ⊢; exact h
    · rw [if_neg ha] at h ⊢; exact ih h

theorem lookupKey_append_fresh {keys : List (String × KeyPair)} {name : String}
    (kp : KeyPair) (h : containsKey keys name = false) :
    lookupKey name (keys ++ [(name, kp)]) = some kp := by
  induction keys with
  | nil => rw [List.nil_append, lookupKey_cons, if_pos rfl]
  | cons hd tl ih =>
    obtain ⟨a, b⟩ := hd
    have ha : a ≠ name := by
      intro he
      subst he
      unfold containsKey at h
      rw [lookupKey_cons, if_pos rfl] at h
      simp at h
    rw [List.cons_append, lookupKey_cons, if_neg ha]
    apply ih
    unfold containsKey at h ⊢
    rw [lookupKey_cons, if_neg ha] at h
    exact h

theorem containsKey_append_of {keys rest : List (String × KeyPair)} {n : String}
    (h : containsKey keys n = true) : containsKey (keys ++ rest) n = true := by
  unfold containsKey at h ⊢
  rw [Option.isSome_iff_exists] at h
  obtain ⟨kp, hkp⟩ := h
  rw [lookupKey_append_some hkp]
  rfl

/-- The `KeyPair` stored for the `i`-th batch-generated key
(main.rs:286-307): a fresh ed25519 key pair whose secret is encrypted
with the *empty* password; `gen i` supplies the randomness of the `i`-th
iteration (secret key, salt, nonce). -/
def batchKeyPair (gen : Nat → Bytes × Bytes × Bytes) (i : Nat) : KeyPair :=
  ⟨ed25519_verifying_key (gen i).1,
   base64_encode (ed25519_verifying_key (gen i).1),
   some (encrypt_secret_key (gen i).1 "" (gen i).2.1 (gen i).2.2)⟩

/-- The `for i in 0..count` loop of `batch_gen_keys` (main.rs:274-310):
at iteration `i` the candidate index is `base + i`, scanned forward past
collisions; the new pair is inserted and its public-key string queued for
`public_keys.txt`.  Returns (final entry list, assigned names in order,
public-key lines in order). -/
def batchLoop (gen : Nat → Bytes × Bytes × Bytes) (base : Nat) :
    Nat → Nat → List (String × KeyPair) →
      List (String × KeyPair) × List String × List String
  | _, 0, keys => (keys, [], [])
  | i, rem + 1, keys =>
    let idx := findFreeIdx keys (keys.length + 1) (base + i)
    let r := batchLoop gen base (i + 1) rem (insertKey keys (batchName idx) (batchKeyPair gen i))
    (r.1, batchName idx :: r.2.1, (batchKeyPair gen i).public_key_string :: r.2.2)

/-- Function `batch_gen_keys` (main.rs:244-330): `count = 0` is a no-op; otherwise
the base index is the lowest `n` with `batch_key_<n>` free, the loop
above runs, the store is saved once, and the public keys are written to
`public_keys.txt`.  Result: (new store, assigned names in order, lines of
`public_keys.txt` in order). -/
def batch_gen_keys (store : KeyStore) (count : Nat)
    (gen : Nat → Bytes × Bytes × Bytes) : KeyStore × List String × List String :=
  if count = 0 then (store, [], [])
  else
    let base := findFreeIdx store.keys (store.keys.length + 1) 0
    let r := batchLoop gen base 0 count store.keys
    (⟨r.1⟩, r.2.1, r.2.2)

theorem batchLoop_preserve (gen : Nat → Bytes × Bytes × Bytes) (base : Nat) :
    ∀ rem i keys n kp, lookupKey n keys = some kp →
      lookupKey n (batchLoop gen base i rem keys).1 = some kp := by
  intro rem
  induction rem with
  | zero => intro i keys n kp h; rw [batchLoop]; exact h
  | succ rem ih =>
    intro i keys n kp h
    rw [batchLoop]
    simp only
    rw [insertKey_not_contains _ (findFreeIdx_free keys (base + i))]
    exact ih (i + 1) _ n kp (lookupKey_append_some h)

theorem batchLoop_contains (gen : Nat → Bytes × Bytes × Bytes) (base : Nat)
    {rem i : Nat} {keys : List (String × KeyPair)} {n : String}
    (h : containsKey keys n = true) :
    containsKey (batchLoop gen base i rem keys).1 n = true := by
  unfold containsKey at h ⊢
  rw [Option.isSome_iff_exists] at h
  obtain ⟨kp, hkp⟩ := h
  rw [batchLoop_preserve gen base rem i keys n kp hkp]
  rfl

theorem batchLoop_names (gen : Nat → Bytes × Bytes × Bytes) (base : Nat) :
    ∀ rem i keys,
      (∀ nm ∈ (batchLoop gen base i rem keys).2.1, containsKey keys nm = false) ∧
      (batchLoop gen base i rem keys).2.1.Nodup ∧
      (∀ nm ∈ (batchLoop gen base i rem keys).2.1,
        containsKey (batchLoop gen base i rem keys).1 nm = true) := by
  intro rem
  induction rem with
  | zero =>
    intro i keys
    rw [batchLoop]
    simp
  | succ rem ih =>
    intro i keys
    have hfree := findFreeIdx_free keys (base + i)
    set nm0 := batchName (findFreeIdx keys (keys.length + 1) (base + i)) with hnm0
    set keys' := insertKey keys nm0 (batchKeyPair gen i) with hkeys'
    have hkeys'app : keys' = keys ++ [(nm0, batchKeyPair gen i)] :=
      insertKey_not_contains _ hfree
    have hcont' : containsKey keys' nm0 = true := by
      unfold containsKey
      rw [hkeys'app, lookupKey_append_fresh _ hfree]
      rfl
    obtain ⟨ihfresh, ihnodup, ihmem⟩ := ih (i + 1) keys'
    have hstep : batchLoop gen base i (rem + 1) keys =
        ((batchLoop gen base (i + 1) rem keys').1,
          nm0 :: (batchLoop gen base (i + 1) rem keys').2.1,
          (batchKeyPair gen i).public_key_string ::
            (batchLoop gen base (i + 1) rem keys').2.2) := by
      rw [batchLoop]
    refine ⟨?_, ?_, ?_⟩
    · intro nm hmem
      rw [hstep] at hmem
      simp only [List.mem_cons] at hmem
      rcases hmem with rfl | hmem
      · exact hfree
      · have h' := ihfresh nm hmem
        cases hb : containsKey keys nm
        · rfl
        · exfalso
          rw [hkeys'app] at h'
          rw [containsKey_append_of hb] at h'
          exact Bool.noConfusion h'
    · rw [hstep]
      simp only [List.nodup_cons]
      refine ⟨?_, ihnodup⟩
      intro hmem
      have h' := ihfresh nm0 hmem
      rw [hcont'] at h'
      exact Bool.noConfusion h'
    · intro nm hmem
      rw [hstep] at hmem
      rw [hstep]
      simp only [List.mem_cons] at hmem
      rcases hmem with rfl | hmem
      · simp only
        exact batchLoop_contains gen base hcont'
      · simp only
        exact ihmem nm hmem

/-- Concrete randomness for the C7 scenario: the `i`-th generated key
pair has secret `[i + 1]` (pairwise distinct), salt `[0]`, nonce `[0]`. -/
def c7gen : Nat → Bytes × Bytes × Bytes := fun i => ([i + 1], [0], [0])

/-- C7: `batch_gen_keys` auto-assigns names `batch_key_<n>` starting from
the lowest free `n` and scanning forward past collisions, so that (i)
every pre-existing entry is still found unchanged afterwards, (ii) the
assigned names are pairwise distinct, (iii) none of them collides with a
pre-existing name, (iv) all of them are present in the resulting store,
(v) a second batch run on the resulting store assigns names disjoint
from the first run's, (vi) for a non-empty batch the first assigned name
is `batch_key_<m>` for the lowest free `m`; and (vii) `batch_gen_keys 3`
on an empty store yields exactly the names `batch_key_0`, `batch_key_1`,
`batch_key_2` and a 3-line `public_keys.txt` of distinct public keys. -/
theorem C7_batch_gen_names (store : KeyStore) (count : Nat)
    (gen : Nat → Bytes × Bytes × Bytes) :
    (∀ n kp, lookupKey n store.keys = some kp →
        lookupKey n (batch_gen_keys store count gen).1.keys = some kp) ∧
    (batch_gen_keys store count gen).2.1.Nodup ∧
    (∀ nm ∈ (batch_gen_keys store count gen).2.1, containsKey store.keys nm = false) ∧
    (∀ nm ∈ (batch_gen_keys store count gen).2.1,
        containsKey (batch_gen_keys store count gen).1.keys nm = true) ∧
    (∀ count₂ gen₂ nm,
        nm ∈ (batch_gen_keys (batch_gen_keys store count gen).1 count₂ gen₂).2.1 →
        nm ∉ (batch_gen_keys store count gen).2.1) ∧
    (0 < count → ∃ m, (batch_gen_keys store count gen).2.1.head? = some (batchName m) ∧
        containsKey store.keys (batchName m) = false ∧
        ∀ j < m, containsKey store.keys (batchName j) = true) ∧
    ((batch_gen_keys ⟨[]⟩ 3 c7gen).2.1 = ["batch_key_0", "batch_key_1", "batch_key_2"] ∧
      (batch_gen_keys ⟨[]⟩ 3 c7gen).2.2.length = 3 ∧
      (batch_gen_keys ⟨[]⟩ 3 c7gen).2.2.Nodup) := by
  have hscenario : (batch_gen_keys ⟨[]⟩ 3 c7gen).2.1 =
        ["batch_key_0", "batch_key_1", "batch_key_2"] ∧
      (batch_gen_keys ⟨[]⟩ 3 c7gen).2.2.length = 3 ∧
      (batch_gen_keys ⟨[]⟩ 3 c7gen).2.2.Nodup := by
    refine ⟨by decide, by decide, by decide⟩
  have hacross : ∀ (store' : KeyStore) count₂ gen₂ nm,
      nm ∈ (batch_gen_keys store' count₂ gen₂).2.1 →
      containsKey store'.keys nm = false := by
    intro store' count₂ gen₂ nm hm
    by_cases hc2 : count₂ = 0
    · subst hc2
      rw [batch_gen_keys, if_pos rfl] at hm
      simp at hm
    · obtain ⟨rem₂, rfl⟩ : ∃ r₂, count₂ = r₂ + 1 := ⟨count₂ - 1, by omega⟩
      rw [batch_gen_keys, if_neg (by omega : ¬(rem₂ + 1 = 0))] at hm
      exact (batchLoop_names gen₂ _ (rem₂ + 1) 0 store'.keys).1 nm hm
  by_cases hc : count = 0
  · subst hc
    rw [batch_gen_keys, if_pos rfl]
    refine ⟨fun n kp h => h, List.nodup_nil, by simp, by simp, ?_, by omega, hscenario⟩
    intro count₂ gen₂ nm _ h1
    simp at h1
  · obtain ⟨rem, rfl⟩ : ∃ r, count = r + 1 := ⟨count - 1, by omega⟩
    have hbg : batch_gen_keys store (rem + 1) gen =
        (⟨(batchLoop gen (findFreeIdx store.keys (store.keys.length + 1) 0) 0 (rem + 1)
            store.keys).1⟩,
         (batchLoop gen (findFreeIdx store.keys (store.keys.length + 1) 0) 0 (rem + 1)
            store.keys).2.1,
         (batchLoop gen (findFreeIdx store.keys (store.keys.length + 1) 0) 0 (rem + 1)
            store.keys).2.2) := by
      rw [batch_gen_keys, if_neg (by omega : ¬(rem + 1 = 0))]
    obtain ⟨hfresh, hnodup, hmem⟩ := batchLoop_names gen
      (findFreeIdx store.keys (store.keys.length + 1) 0) (rem + 1) 0 store.keys
    refine ⟨?_, ?_, ?_, ?_, ?_, ?_, hscenario⟩
    · intro n kp h
      rw [hbg]
      exact batchLoop_preserve gen _ (rem + 1) 0 store.keys n kp h
    · rw [hbg]; exact hnodup
    · rw [hbg]; exact hfresh
    · rw [hbg]; exact hmem
    · intro count₂ gen₂ nm h2 h1
      have hf := hacross _ count₂ gen₂ nm h2
      rw [hbg] at h1 hf
      have ht := hmem nm h1
      rw [ht] at hf
      exact Bool.noConfusion hf
    · intro _
      refine ⟨findFreeIdx store.keys (store.keys.length + 1) 0, ?_,
        findFreeIdx_free store.keys 0,
        fun j hj => findFreeIdx_min store.keys (store.keys.length + 1) 0 j
          (Nat.zero_le j) hj⟩
      rw [hbg, batchLoop]
      simp only [List.head?_cons, Option.some.injEq]
      simp only [Nat.add_zero]
      rw [findFreeIdx_of_free store.keys.length (findFreeIdx_free store.keys 0)]

/-- C7 witness: on a concrete store already holding `batch_key_1`, the
run `batch_gen_keys 2` leaves the pre-existing entry in place and the
pre-existing entry's name is not among the freshly assigned ones. -/
theorem C7_batch_gen_names_witness :
    lookupKey "batch_key_1"
      (batch_gen_keys ⟨[("batch_key_1", ⟨[7], "pk7", none⟩)]⟩ 2 c7gen).1.keys =
      some ⟨[7], "pk7", none⟩ ∧
    "batch_key_1" ∉ (batch_gen_keys ⟨[("batch_key_1", ⟨[7], "pk7", none⟩)]⟩ 2 c7gen).2.1 := by
  constructor
  · exact (C7_batch_gen_names ⟨[("batch_key_1", ⟨[7], "pk7", none⟩)]⟩ 2 c7gen).1
      "batch_key_1" ⟨[7], "pk7", none⟩ rfl
  · intro hmem
    have := (C7_batch_gen_names ⟨[("batch_key_1", ⟨[7], "pk7", none⟩)]⟩ 2 c7gen).2.2.1
      "batch_key_1" hmem
    rw [show containsKey (⟨[("batch_key_1", ⟨[7], "pk7", none⟩)]⟩ : KeyStore).keys
        "batch_key_1" = true from rfl] at this
    exact Bool.noConfusion this
